import Mathlib

/-!
# OpenNof1 — multi-exchange trading abstraction and frontend, shallow embedding

This file embeds the parts of the OpenNof1 repository needed to settle the
claims about it: the symbol & parameter mapper, the exchange trader factory,
the adapter's `open_long` validation pipeline, the rate limiter, the
`OrderResult` normalization, the Next.js API middleware
(`frontend/src/middleware.ts`) and the decision-list merge operations of the
`TradingDashboard` component.

The backend trading layer (`backend/trading/*.py`) is designed in the
repository's `specs/003-ccxt-exchange-abstraction` documents but its
implementation files are not part of the source tree available here; those
components are modelled from the specification (each such definition carries a
doc comment starting with `Modelled from the spec:`).  The frontend middleware
and dashboard component are embedded directly from their TypeScript sources.
-/

/-! ## Symbol & Parameter Mapper -/

/-- Failure modes of the mapper (spec §4.2 / §7). -/
inductive MapperError where
  | unsupportedSymbol
  | invalidOrderParameters
  deriving DecidableEq

/-- Modelled from the spec: `to_exchange_symbol(canonical, exchange)` —
table lookup of the per-exchange symbol table (canonical symbol, native
symbol); raises `UnsupportedSymbolError` on a miss, never passes the
canonical string through unchanged.  The per-exchange table is the list of
`(internal_symbol, native)` pairs taken from the `symbol_mapping`
configuration section. -/
def to_exchange_symbol (table : List (String × String)) (canonical : String) :
    Except MapperError String :=
  match table.find? (fun p => p.1 == canonical) with
  | some p => .ok p.2
  | none => .error .unsupportedSymbol

/-- Modelled from the spec: `to_canonical_symbol(native_symbol, exchange)` —
reverse lookup via the same table. -/
def to_canonical_symbol (table : List (String × String)) (native : String) :
    Except MapperError String :=
  match table.find? (fun p => p.2 == native) with
  | some p => .ok p.1
  | none => .error .unsupportedSymbol

/-- Modelled from the spec: `normalize_symbol(symbol)` on an adapter delegates
to the mapper with the adapter's own symbol table. -/
def normalize_symbol (table : List (String × String)) (symbol : String) :
    Except MapperError String :=
  to_exchange_symbol table symbol

/-- The configured mapping for the Binance-style adapter
(`symbol_mapping: "BTC/USDT": binance_futures: "BTCUSDT"` in the exchange
configuration). -/
def binanceFuturesSymbolTable : List (String × String) := [("BTC/USDT", "BTCUSDT")]

/-- The configured mapping for the Hyperliquid-style adapter
(`symbol_mapping: "BTC/USDT": hyperliquid: "BTC"`). -/
def hyperliquidSymbolTable : List (String × String) := [("BTC/USDT", "BTC")]

/-! ## Theorems: symbol mapping -/

/-- C2: for every per-exchange symbol table whose canonical keys are distinct
(the configuration is a dictionary keyed by internal symbol, so keys are
unique) and every canonical symbol `S`, the mapping round-trips:
`to_exchange_symbol (to_canonical_symbol (to_exchange_symbol S))` equals
`to_exchange_symbol S`. -/
theorem symbol_mapping_roundtrip (table : List (String × String)) (S : String)
    (hkeys : (table.map Prod.fst).Nodup) :
    (to_exchange_symbol table S).bind
      (fun n => (to_canonical_symbol table n).bind (to_exchange_symbol table)) =
    to_exchange_symbol table S := by
  cases hfind : table.find? (fun p => p.1 == S) with
  | none => simp [to_exchange_symbol, hfind, Except.bind]
  | some q =>
    have hq_mem : q ∈ table := List.mem_of_find?_eq_some hfind
    cases hrev : table.find? (fun p => p.2 == q.2) with
    | none =>
      exfalso
      have h := List.find?_eq_none.mp hrev q hq_mem
      simp at h
    | some r =>
      have hr_mem : r ∈ table := List.mem_of_find?_eq_some hrev
      have hr_eq : r.2 = q.2 := by
        have h := List.find?_some hrev
        simpa using h
      cases hfwd : table.find? (fun p => p.1 == r.1) with
      | none =>
        exfalso
        have h := List.find?_eq_none.mp hfwd r hr_mem
        simp at h
      | some t =>
        have ht_mem : t ∈ table := List.mem_of_find?_eq_some hfwd
        have ht_eq : t.1 = r.1 := by
          have h := List.find?_some hfwd
          simpa using h
        have htr : t = r := List.inj_on_of_nodup_map hkeys ht_mem hr_mem ht_eq
        simp [to_exchange_symbol, to_canonical_symbol, hfind, hrev, hfwd, htr, hr_eq, Except.bind]

/-- Witness for C2: the round-trip evaluated on the concrete Binance-style
table at `"BTC/USDT"`. -/
theorem symbol_mapping_roundtrip_witness :
    (to_exchange_symbol binanceFuturesSymbolTable "BTC/USDT").bind
      (fun n => (to_canonical_symbol binanceFuturesSymbolTable n).bind
        (to_exchange_symbol binanceFuturesSymbolTable)) =
    to_exchange_symbol binanceFuturesSymbolTable "BTC/USDT" :=
  symbol_mapping_roundtrip binanceFuturesSymbolTable "BTC/USDT" (by decide)

/-- C8: given the configured mappings for the internal symbol `"BTC/USDT"`,
`normalize_symbol` returns exactly `"BTCUSDT"` on the Binance-style adapter
and exactly `"BTC"` on the Hyperliquid-style adapter. -/
theorem normalize_symbol_btc_usdt :
    normalize_symbol binanceFuturesSymbolTable "BTC/USDT" = .ok "BTCUSDT" ∧
    normalize_symbol hyperliquidSymbolTable "BTC/USDT" = .ok "BTC" :=
  ⟨rfl, rfl⟩

/-! ## Quantity rounding -/

/-- Truncation of a rational toward zero, as an integer. -/
def truncTowardZero (x : ℚ) : ℤ :=
  if 0 ≤ x.num then ((x.num.toNat / x.den : ℕ) : ℤ)
  else -(((-x.num).toNat / x.den : ℕ) : ℤ)

/-- Modelled from the spec: `round_quantity(symbol, exchange, raw_quantity)` —
truncates the raw quantity to the exchange's declared decimal precision
`prec` (rounding toward zero) and raises `InvalidOrderParametersError` when
the result is below the exchange's minimum order quantity or the notional
(result × current price) is below the minimum notional. -/
def round_quantity (prec : ℕ) (minQty minNotional price q : ℚ) :
    Except MapperError ℚ :=
  let f : ℚ := ((truncTowardZero (q * 10 ^ prec) : ℤ) : ℚ) / 10 ^ prec
  if f < minQty ∨ f * price < minNotional then .error .invalidOrderParameters
  else .ok f

/-! ## Theorems: quantity rounding -/

/-- Natural division, cast to the rationals, is below the rational division. -/
theorem natDiv_le_ratDiv (a b : ℕ) (hb : 0 < b) :
    ((a / b : ℕ) : ℚ) ≤ (a : ℚ) / (b : ℚ) := by
  have hbq : (0 : ℚ) < (b : ℚ) := by exact_mod_cast hb
  rw [le_div_iff₀ hbq]
  exact_mod_cast Nat.div_mul_le_self a b

/-- Truncation toward zero never exceeds a nonnegative argument. -/
theorem truncTowardZero_le (x : ℚ) (hx : 0 ≤ x) : ((truncTowardZero x : ℤ) : ℚ) ≤ x := by
  have hnum : 0 ≤ x.num := Rat.num_nonneg.mpr hx
  rw [truncTowardZero, if_pos hnum]
  have h1 : ((x.num.toNat / x.den : ℕ) : ℚ) ≤ ((x.num.toNat : ℕ) : ℚ) / (x.den : ℚ) :=
    natDiv_le_ratDiv x.num.toNat x.den x.pos
  have h2 : ((x.num.toNat : ℕ) : ℚ) = ((x.num : ℤ) : ℚ) := by
    exact_mod_cast congrArg (fun z : ℤ => (z : ℚ)) (Int.toNat_of_nonneg hnum)
  have h3 : ((x.num : ℤ) : ℚ) / (x.den : ℚ) = x := Rat.num_div_den x
  calc ((((x.num.toNat / x.den : ℕ) : ℤ)) : ℚ)
      = ((x.num.toNat / x.den : ℕ) : ℚ) := by norm_cast
    _ ≤ ((x.num.toNat : ℕ) : ℚ) / (x.den : ℚ) := h1
    _ = ((x.num : ℤ) : ℚ) / (x.den : ℚ) := by rw [h2]
    _ = x := h3

/-- Truncation toward zero of a negative argument is nonpositive. -/
theorem truncTowardZero_nonpos (x : ℚ) (hx : x < 0) :
    ((truncTowardZero x : ℤ) : ℚ) ≤ 0 := by
  have hnum : ¬ 0 ≤ x.num := by
    rw [Rat.num_nonneg]
    exact not_le.mpr hx
  rw [truncTowardZero, if_neg hnum]
  rw [Int.cast_neg]
  refine neg_nonpos.mpr ?_
  positivity

/-- C3: `round_quantity` either returns a value `v` that never exceeds the
raw quantity `q`, is at least the minimum order quantity and whose notional
`v * price` is at least the minimum notional, or it fails with
`InvalidOrderParametersError` — provided the configured minimum order
quantity is positive (a validation rule of the exchange configuration). -/
theorem round_quantity_never_rounds_up (prec : ℕ) (minQty minNotional price q : ℚ)
    (hmin : 0 < minQty) :
    (∃ v, round_quantity prec minQty minNotional price q = .ok v ∧
      v ≤ q ∧ minQty ≤ v ∧ minNotional ≤ v * price) ∨
    round_quantity prec minQty minNotional price q = .error .invalidOrderParameters := by
  rw [round_quantity]
  set f : ℚ := ((truncTowardZero (q * 10 ^ prec) : ℤ) : ℚ) / 10 ^ prec with hf
  by_cases hcond : f < minQty ∨ f * price < minNotional
  · right
    rw [if_pos hcond]
  · left
    refine ⟨f, by rw [if_neg hcond], ?_, ?_, ?_⟩
    · push_neg at hcond
      have hpow : (0 : ℚ) < 10 ^ prec := by positivity
      by_cases hq : 0 ≤ q
      · have harg : (0 : ℚ) ≤ q * 10 ^ prec := by positivity
        have := truncTowardZero_le (q * 10 ^ prec) harg
        calc f = ((truncTowardZero (q * 10 ^ prec) : ℤ) : ℚ) / 10 ^ prec := hf
          _ ≤ (q * 10 ^ prec) / 10 ^ prec := by
              exact (div_le_div_iff_of_pos_right hpow).mpr this
          _ = q := by field_simp
      · exfalso
        push_neg at hq
        have harg : q * 10 ^ prec < 0 := by
          exact mul_neg_of_neg_of_pos hq hpow
        have hle := truncTowardZero_nonpos (q * 10 ^ prec) harg
        have hf_nonpos : f ≤ 0 := by
          rw [hf]
          exact div_nonpos_of_nonpos_of_nonneg hle (le_of_lt hpow)
        have : minQty ≤ f := hcond.1
        linarith
    · push_neg at hcond
      exact hcond.1
    · push_neg at hcond
      exact hcond.2

/-- Witness for C3: on an exchange with precision 0, minimum quantity 1,
minimum notional 1 and price 1, the raw quantity 2 is accepted unchanged. -/
theorem round_quantity_never_rounds_up_witness :
    (0 : ℚ) < 1 ∧
    ((∃ v, round_quantity 0 1 1 1 2 = .ok v ∧
      v ≤ 2 ∧ (1 : ℚ) ≤ v ∧ (1 : ℚ) ≤ v * 1) ∨
    round_quantity 0 1 1 1 2 = .error .invalidOrderParameters) :=
  ⟨one_pos, round_quantity_never_rounds_up 0 1 1 1 2 one_pos⟩

/-! ## Exchange trader factory -/

/-- A transport-layer (network) call emitted by an operation.  Validation
failures must produce an empty list of these (spec §7 principle). -/
inductive NetCall where
  | placeOrder (native : String) (qty : ℚ) (leverage : ℕ)
  deriving DecidableEq

/-- Factory failure (spec §7): bad or missing exchange configuration. -/
inductive FactoryError where
  | configurationError
  deriving DecidableEq

/-- One exchange's configuration entry as the factory sees it: its name, the
enabled flag, and whether its configuration (credential descriptors included)
passed structural validation. -/
structure ExchangeConfig where
  name : String
  enabled : Bool
  validConfig : Bool
  deriving DecidableEq

/-- The factory's state: the cache mapping exchange name to the constructed
adapter instance (instances are identified by their construction id, so that
reference equality is expressible), and the id the next construction will
use. -/
structure FactoryState where
  cache : List (String × ℕ)
  nextId : ℕ
  deriving DecidableEq

/-- Modelled from the spec: `Factory.get(exchange_name)` — returns the cached
adapter when one exists; otherwise resolves the exchange's configuration
(failing with `ConfigurationError` when the exchange is unknown, disabled or
its configuration fails validation), constructs the adapter and caches it
keyed by name.  Construction performs no network call: credential resolution
is structural only and adapters authenticate lazily (spec §4.3/§4.5).  The
result carries the adapter instance id, the state after the call and the
network calls performed. -/
def Factory.get (cfgs : List ExchangeConfig) (s : FactoryState) (name : String) :
    Except FactoryError ℕ × FactoryState × List NetCall :=
  match s.cache.find? (fun p => p.1 == name) with
  | some p => (.ok p.2, s, [])
  | none =>
    match cfgs.find? (fun c => c.name == name) with
    | none => (.error .configurationError, s, [])
    | some c =>
      if c.enabled && c.validConfig then
        (.ok s.nextId, ⟨(name, s.nextId) :: s.cache, s.nextId + 1⟩, [])
      else (.error .configurationError, s, [])

/-- No configuration entry usable for `name`: the lookup either misses
(unknown exchange) or yields an entry that is disabled or failed
validation. -/
def noUsableConfig (cfgs : List ExchangeConfig) (name : String) : Bool :=
  match cfgs.find? (fun c => c.name == name) with
  | none => true
  | some c => !(c.enabled && c.validConfig)

/-! ## Theorems: factory -/

/-- C1: when `Factory.get` succeeds, calling it again with the same name
returns the identical cached adapter instance and leaves the state unchanged
(no second construction, and no network call). -/
theorem factory_get_cached_instance (cfgs : List ExchangeConfig) (s : FactoryState)
    (name : String) (a : ℕ) (s₁ : FactoryState) (tr : List NetCall)
    (h : Factory.get cfgs s name = (.ok a, s₁, tr)) :
    Factory.get cfgs s₁ name = (.ok a, s₁, []) := by
  cases hc : s.cache.find? (fun p => p.1 == name) with
  | some p =>
    simp only [Factory.get, hc, Prod.mk.injEq, Except.ok.injEq] at h
    obtain ⟨ha, hs, -⟩ := h
    subst hs
    simp only [Factory.get, hc, ha]
  | none =>
    cases hf : cfgs.find? (fun c => c.name == name) with
    | none =>
      simp only [Factory.get, hc, hf, Prod.mk.injEq] at h
      exact absurd h.1 (by simp)
    | some c =>
      by_cases hok : (c.enabled && c.validConfig) = true
      · simp only [Factory.get, hc, hf, hok, if_true, Prod.mk.injEq,
          Except.ok.injEq] at h
        obtain ⟨ha, hs, -⟩ := h
        subst hs
        subst ha
        simp only [Factory.get]
        rw [List.find?_cons_of_pos _ (by simp)]
      · simp only [Factory.get, hc, hf, if_neg hok, Prod.mk.injEq] at h
        exact absurd h.1 (by simp)

/-- Witness for C1: with `binance_futures` configured and already constructed
as instance 0, a repeated `Factory.get` returns instance 0 and the unchanged
state. -/
theorem factory_get_cached_instance_witness :
    Factory.get [⟨"binance_futures", true, true⟩]
      ⟨[("binance_futures", 0)], 1⟩ "binance_futures" =
    (.ok 0, ⟨[("binance_futures", 0)], 1⟩, []) :=
  factory_get_cached_instance [⟨"binance_futures", true, true⟩] ⟨[], 0⟩
    "binance_futures" 0 ⟨[("binance_futures", 0)], 1⟩ [] rfl

/-- C5: `Factory.get` on an exchange name that is not cached and is unknown,
disabled or whose configuration fails validation fails with
`ConfigurationError`, leaves the state unchanged and performs no network
call. -/
theorem factory_get_unknown_config_error (cfgs : List ExchangeConfig)
    (s : FactoryState) (name : String)
    (hcache : s.cache.find? (fun p => p.1 == name) = none)
    (hbad : noUsableConfig cfgs name = true) :
    Factory.get cfgs s name = (.error .configurationError, s, []) := by
  cases hf : cfgs.find? (fun c => c.name == name) with
  | none => simp only [Factory.get, hcache, hf]
  | some c =>
    simp only [noUsableConfig, hf, Bool.not_eq_true'] at hbad
    simp only [Factory.get, hcache, hf, hbad, Bool.false_eq_true, if_false]

/-- Witness for C5: `Factory.get "unknown_exchange"` on a fresh factory with
only `binance_futures` configured fails with `ConfigurationError` and emits
no network call. -/
theorem factory_get_unknown_config_error_witness :
    Factory.get [⟨"binance_futures", true, true⟩] ⟨[], 0⟩ "unknown_exchange" =
    (.error .configurationError, ⟨[], 0⟩, []) :=
  factory_get_unknown_config_error [⟨"binance_futures", true, true⟩] ⟨[], 0⟩
    "unknown_exchange" rfl rfl

/-! ## Exchange adapter: order placement -/

/-- Failure taxonomy of trading operations (spec §7), restricted to the
locally detectable errors relevant here. -/
inductive TradingError where
  | unsupportedSymbol
  | invalidOrderParameters
  | riskLimitExceeded
  deriving DecidableEq

/-- Declared order status values (spec §3, `OrderResult.status`). -/
inductive OrderStatus where
  | filled
  | partiallyFilled
  | cancelled
  | rejected
  | failed
  deriving DecidableEq

/-- Order side. -/
inductive OrderSide where
  | buy
  | sell
  deriving DecidableEq

/-- The output record of every trading operation (spec §3), restricted to the
fields the claims are about. -/
structure OrderResult where
  symbol : String
  exchange : String
  side : OrderSide
  requested_quantity : ℚ
  executed_quantity : ℚ
  status : OrderStatus
  deriving DecidableEq

/-- Per-adapter configuration: symbol table, per-symbol leverage maxima with
a default, and the precision rules used by `round_quantity`. -/
structure AdapterConfig where
  exchangeName : String
  table : List (String × String)
  maxLeverage : List (String × ℕ)
  defaultMaxLeverage : ℕ
  prec : ℕ
  minQty : ℚ
  minNotional : ℚ

/-- The configured per-symbol leverage maximum, falling back to the
exchange-wide default (spec §3, leverage limits). -/
def maxLeverageFor (cfg : AdapterConfig) (symbol : String) : ℕ :=
  match cfg.maxLeverage.find? (fun p => p.1 == symbol) with
  | some p => p.2
  | none => cfg.defaultMaxLeverage

/-- The status an exchange's raw non-fill status normalizes to. -/
def nonFillStatus (rawStatus : OrderStatus) : OrderStatus :=
  match rawStatus with
  | .cancelled => .cancelled
  | .rejected => .rejected
  | _ => .failed

/-- The normalized status, derived from the executed and requested
quantities. -/
def statusFor (requested e : ℚ) (rawStatus : OrderStatus) : OrderStatus :=
  if 0 < e then (if e < requested then .partiallyFilled else .filled)
  else nonFillStatus rawStatus

/-- Modelled from the spec: normalization of a raw exchange fill response
into an `OrderResult`.  The executed quantity is clamped into
`[0, requested]` and the status is derived from it, so every constructed
record satisfies the `OrderResult` invariant; the record is a plain
immutable value, never mutated after construction. -/
def normalizeOrder (cfg : AdapterConfig) (symbol : String) (side : OrderSide)
    (requested rawExecuted : ℚ) (rawStatus : OrderStatus) : OrderResult :=
  { symbol := symbol
    exchange := cfg.exchangeName
    side := side
    requested_quantity := requested
    executed_quantity := max 0 (min rawExecuted requested)
    status := statusFor requested (max 0 (min rawExecuted requested)) rawStatus }

/-- Modelled from the spec: `open_long(symbol, quantity, leverage)` — the
adapter validates the symbol via the mapper (`UnsupportedSymbolError`), the
leverage against the configured per-symbol maximum
(`RiskLimitExceededError`), and the quantity via `round_quantity`
(`InvalidOrderParametersError`), all before any network call; only when all
validations pass does it emit the order on the transport layer.  `rawFill`
stands for the exchange's fill response (executed quantity and raw status),
normalized into the returned `OrderResult`. -/
def open_long (cfg : AdapterConfig) (price : ℚ) (rawFill : ℚ × OrderStatus)
    (symbol : String) (qty : ℚ) (leverage : ℕ) :
    Except TradingError OrderResult × List NetCall :=
  match to_exchange_symbol cfg.table symbol with
  | .error _ => (.error .unsupportedSymbol, [])
  | .ok native =>
    if maxLeverageFor cfg symbol < leverage then (.error .riskLimitExceeded, [])
    else
      match round_quantity cfg.prec cfg.minQty cfg.minNotional price qty with
      | .error _ => (.error .invalidOrderParameters, [])
      | .ok v =>
        (.ok (normalizeOrder cfg symbol .buy v rawFill.1 rawFill.2),
         [.placeOrder native v leverage])

/-! ## Theorems: adapter -/

/-- C4: an `open_long` call for a mapped symbol whose requested leverage
exceeds the configured per-symbol maximum fails with
`RiskLimitExceededError` and performs zero calls to the transport layer. -/
theorem open_long_risk_limit_no_network (cfg : AdapterConfig) (price : ℚ)
    (rawFill : ℚ × OrderStatus) (symbol : String) (qty : ℚ) (leverage : ℕ)
    (hsym : ∃ n, to_exchange_symbol cfg.table symbol = .ok n)
    (hlev : maxLeverageFor cfg symbol < leverage) :
    open_long cfg price rawFill symbol qty leverage = (.error .riskLimitExceeded, []) := by
  obtain ⟨n, hn⟩ := hsym
  simp only [open_long, hn, if_pos hlev]

/-- Witness for C4: on a Binance-style adapter with maximum leverage 20 for
`"BTC/USDT"`, requesting leverage 21 fails with `RiskLimitExceededError` and
emits no network call. -/
theorem open_long_risk_limit_no_network_witness :
    open_long ⟨"binance_futures", binanceFuturesSymbolTable, [("BTC/USDT", 20)], 10, 3, 1/1000, 5⟩
      50000 (0, .filled) "BTC/USDT" 1 21 = (.error .riskLimitExceeded, []) :=
  open_long_risk_limit_no_network
    ⟨"binance_futures", binanceFuturesSymbolTable, [("BTC/USDT", 20)], 10, 3, 1/1000, 5⟩
    50000 (0, .filled) "BTC/USDT" 1 21 ⟨"BTCUSDT", rfl⟩ (by decide)

/-- C6: every `OrderResult` produced by the adapter's normalization satisfies
the invariant: the executed quantity never exceeds the requested quantity,
and a positive executed quantity occurs only with status `FILLED` or
`PARTIALLY_FILLED` (the status field ranges over the declared status values
by construction, and the record is an immutable value). -/
theorem orderResult_invariant (cfg : AdapterConfig) (symbol : String)
    (side : OrderSide) (requested rawExecuted : ℚ) (rawStatus : OrderStatus)
    (hreq : 0 ≤ requested) :
    (normalizeOrder cfg symbol side requested rawExecuted rawStatus).executed_quantity ≤
      (normalizeOrder cfg symbol side requested rawExecuted rawStatus).requested_quantity ∧
    (0 < (normalizeOrder cfg symbol side requested rawExecuted rawStatus).executed_quantity →
      (normalizeOrder cfg symbol side requested rawExecuted rawStatus).status = .filled ∨
      (normalizeOrder cfg symbol side requested rawExecuted rawStatus).status = .partiallyFilled) := by
  refine ⟨?_, ?_⟩
  · simp only [normalizeOrder]
    exact max_le hreq (min_le_right rawExecuted requested)
  · intro hpos
    simp only [normalizeOrder] at hpos ⊢
    rw [statusFor, if_pos hpos]
    by_cases hlt : max 0 (min rawExecuted requested) < requested
    · right
      rw [if_pos hlt]
    · left
      rw [if_neg hlt]

/-- Witness for C6: a partial fill of 1 out of a requested 2 yields status
`PARTIALLY_FILLED` with executed quantity within bounds. -/
theorem orderResult_invariant_witness :
    (0 : ℚ) ≤ 2 ∧
    ((normalizeOrder ⟨"binance_futures", binanceFuturesSymbolTable, [], 10, 3, 1/1000, 5⟩
        "BTC/USDT" .buy 2 1 .filled).executed_quantity ≤
      (normalizeOrder ⟨"binance_futures", binanceFuturesSymbolTable, [], 10, 3, 1/1000, 5⟩
        "BTC/USDT" .buy 2 1 .filled).requested_quantity ∧
    (0 < (normalizeOrder ⟨"binance_futures", binanceFuturesSymbolTable, [], 10, 3, 1/1000, 5⟩
        "BTC/USDT" .buy 2 1 .filled).executed_quantity →
      (normalizeOrder ⟨"binance_futures", binanceFuturesSymbolTable, [], 10, 3, 1/1000, 5⟩
        "BTC/USDT" .buy 2 1 .filled).status = .filled ∨
      (normalizeOrder ⟨"binance_futures", binanceFuturesSymbolTable, [], 10, 3, 1/1000, 5⟩
        "BTC/USDT" .buy 2 1 .filled).status = .partiallyFilled)) :=
  ⟨by norm_num,
   orderResult_invariant ⟨"binance_futures", binanceFuturesSymbolTable, [], 10, 3, 1/1000, 5⟩
     "BTC/USDT" .buy 2 1 .filled (by norm_num)⟩

/-! ## Rate limiter -/

/-- A token bucket: fixed capacity, current tokens (spec §4.4). -/
structure Bucket where
  capacity : ℕ
  tokens : ℕ
  deriving DecidableEq

/-- The outcome of an `acquire` call: admitted immediately from remaining
capacity, suspended until the next refill interval, or failed with
`RateLimitError` because the configured wait ceiling is exceeded. -/
inductive AcquireOutcome where
  | admitted
  | waitedForRefill
  | rateLimited
  deriving DecidableEq

/-- Modelled from the spec: `acquire(exchange, endpoint_class)` on one bucket
within a single refill interval (no tokens are added inside the interval).
A call finding capacity takes one token and is admitted; a call finding the
bucket empty either suspends past the interval boundary when the configured
wait ceiling permits (`waitOk`) or fails with `RateLimitError`. -/
def acquire (waitOk : Bool) (b : Bucket) : AcquireOutcome × Bucket :=
  if 0 < b.tokens then (.admitted, ⟨b.capacity, b.tokens - 1⟩)
  else if waitOk then (.waitedForRefill, b)
  else (.rateLimited, b)

/-- A sequence of `acquire` calls against one bucket within one interval,
each with its own wait-ceiling flag; returns the outcomes in order and the
final bucket. -/
def acquireRun (flags : List Bool) (b : Bucket) : List AcquireOutcome × Bucket :=
  match flags with
  | [] => ([], b)
  | f :: fs =>
    let step := acquire f b
    let rest := acquireRun fs step.2
    (step.1 :: rest.1, rest.2)

/-! ## Theorems: rate limiter -/

/-- A run never increases the token count. -/
theorem acquireRun_tokens_le (flags : List Bool) (b : Bucket) :
    (acquireRun flags b).2.tokens ≤ b.tokens := by
  induction flags generalizing b with
  | nil => exact le_refl _
  | cons f fs ih =>
    simp only [acquireRun]
    by_cases h : 0 < b.tokens
    · calc (acquireRun fs (acquire f b).2).2.tokens
          ≤ (acquire f b).2.tokens := ih (acquire f b).2
        _ ≤ b.tokens := by
            simp only [acquire, if_pos h]
            exact Nat.sub_le _ _
    · have hb : (acquire f b).2 = b := by
        simp only [acquire, if_neg h]
        cases f <;> simp
      rw [hb]
      exact ih b

/-- Every outcome of a run is recorded; the run has one outcome per call. -/
theorem acquireRun_length (flags : List Bool) (b : Bucket) :
    (acquireRun flags b).1.length = flags.length := by
  induction flags generalizing b with
  | nil => rfl
  | cons f fs ih =>
    simp only [acquireRun, List.length_cons]
    rw [ih]

/-- Token accounting: the final token count plus the number of admitted
calls equals the initial token count. -/
theorem acquireRun_count_admitted (flags : List Bool) (b : Bucket) :
    (acquireRun flags b).2.tokens + (acquireRun flags b).1.count .admitted = b.tokens := by
  induction flags generalizing b with
  | nil => simp [acquireRun]
  | cons f fs ih =>
    by_cases h : 0 < b.tokens
    · have hstep : acquire f b = (.admitted, ⟨b.capacity, b.tokens - 1⟩) := by
        simp only [acquire, if_pos h]
      simp only [acquireRun, hstep, List.count_cons_self]
      have hih := ih (⟨b.capacity, b.tokens - 1⟩ : Bucket)
      have hd : (⟨b.capacity, b.tokens - 1⟩ : Bucket).tokens = b.tokens - 1 := rfl
      rw [hd] at hih
      omega
    · have hb : (acquire f b).2 = b := by
        simp only [acquire, if_neg h]
        cases f <;> simp
      have hne : AcquireOutcome.admitted ≠ (acquire f b).1 := by
        simp only [acquire, if_neg h]
        cases f <;> simp
      simp only [acquireRun, hb, List.count_cons_of_ne hne]
      exact ih b

/-- If any tokens remain after a run, every call of the run was admitted. -/
theorem acquireRun_all_admitted (flags : List Bool) (b : Bucket)
    (hpos : 0 < (acquireRun flags b).2.tokens) :
    ∀ o ∈ (acquireRun flags b).1, o = .admitted := by
  induction flags generalizing b with
  | nil => intro o ho; cases ho
  | cons f fs ih =>
    by_cases h : 0 < b.tokens
    · intro o ho
      simp only [acquireRun, List.mem_cons] at ho
      rcases ho with ho | ho
      · rw [ho]
        simp only [acquire, if_pos h]
      · have hpos' : 0 < (acquireRun fs (acquire f b).2).2.tokens := by
          simpa [acquireRun] using hpos
        exact ih (acquire f b).2 hpos' o ho
    · exfalso
      have hz : b.tokens = 0 := Nat.eq_zero_of_not_pos h
      have hb : (acquire f b).2 = b := by
        simp only [acquire, if_neg h]
        cases f <;> simp
      have : (acquireRun (f :: fs) b).2.tokens ≤ b.tokens := by
        simp only [acquireRun, hb]
        exact acquireRun_tokens_le fs b
      omega

/-- C7: a bucket configured to admit `n` calls per interval never lets the
`(n+1)`-th call of the interval bypass the limit: after any `n` acquire
calls within the interval, the next call either waits for the refill or
fails with `RateLimitError` — it is never admitted from capacity. -/
theorem rate_limiter_no_bypass (n : ℕ) (flags : List Bool) (lastWaitOk : Bool)
    (hlen : flags.length = n) :
    (acquire lastWaitOk (acquireRun flags ⟨n, n⟩).2).1 = .waitedForRefill ∨
    (acquire lastWaitOk (acquireRun flags ⟨n, n⟩).2).1 = .rateLimited := by
  have hzero : (acquireRun flags ⟨n, n⟩).2.tokens = 0 := by
    by_contra hne
    have hpos : 0 < (acquireRun flags ⟨n, n⟩).2.tokens := Nat.pos_of_ne_zero hne
    have hall := acquireRun_all_admitted flags ⟨n, n⟩ hpos
    have hcount : (acquireRun flags ⟨n, n⟩).1.count AcquireOutcome.admitted =
        (acquireRun flags ⟨n, n⟩).1.length := by
      rw [List.count_eq_length]
      intro o ho
      exact (hall o ho).symm
    have hacc := acquireRun_count_admitted flags ⟨n, n⟩
    rw [hcount, acquireRun_length, hlen] at hacc
    have htok : (⟨n, n⟩ : Bucket).tokens = n := rfl
    rw [htok] at hacc
    omega
  simp only [acquire, hzero, Nat.lt_irrefl, if_false]
  cases lastWaitOk <;> simp

/-- Witness for C7: a bucket of capacity 2, after 2 admitted calls, rejects
the third with `RateLimitError` when no waiting is allowed. -/
theorem rate_limiter_no_bypass_witness :
    ([true, true] : List Bool).length = 2 ∧
    ((acquire false (acquireRun [true, true] ⟨2, 2⟩).2).1 = .waitedForRefill ∨
     (acquire false (acquireRun [true, true] ⟨2, 2⟩).2).1 = .rateLimited) :=
  ⟨rfl, rate_limiter_no_bypass 2 [true, true] false rfl⟩

/-! ## Next.js API middleware (`frontend/src/middleware.ts`) -/

/-- `ALWAYS_BLOCKED_PATHS` from the middleware source. -/
def ALWAYS_BLOCKED_PATHS : List String := ["/api/agent/analyze"]

/-- `CONTROLLED_PATHS` from the middleware source. -/
def CONTROLLED_PATHS : List String :=
  ["/api/agent/start", "/api/agent/stop",
   "/api/trading/history/reset", "/api/trading/history/sync"]

/-- `WRITE_ONLY_BLOCKED_PATHS` from the middleware source. -/
def WRITE_ONLY_BLOCKED_PATHS : List String := ["/api/trading/strategy"]

/-- `WRITE_BLOCKED_METHODS` from the middleware source. -/
def WRITE_BLOCKED_METHODS : List String := ["POST", "PUT", "PATCH", "DELETE"]

/-- `normalizePath`: the root path is kept, otherwise one trailing slash is
removed (`pathname.slice(0, -1)` drops the final character). -/
def normalizePath (pathname : String) : String :=
  if pathname = "/" then pathname
  else if pathname.endsWith "/" then pathname.dropRight 1
  else pathname

/-- The middleware's result: rewrite the request to `/api/frontend-blocked`,
or let it proceed (`NextResponse.next()`). -/
inductive MiddlewareResult where
  | rewriteToBlocked
  | next
  deriving DecidableEq

/-- The `middleware` function: `allowControlOperations` is the value of the
environment variable `ALLOW_CONTROL_OPERATIONS` (absent = `none`). -/
def middleware (allowControlOperations : Option String)
    (pathname method : String) : MiddlewareResult :=
  let p := normalizePath pathname
  let isControlAllowed : Bool := allowControlOperations == some "true"
  if ALWAYS_BLOCKED_PATHS.contains p then .rewriteToBlocked
  else if !isControlAllowed then
    if CONTROLLED_PATHS.contains p then .rewriteToBlocked
    else if WRITE_ONLY_BLOCKED_PATHS.contains p &&
        WRITE_BLOCKED_METHODS.contains method then .rewriteToBlocked
    else .next
  else .next

/-- `blockedResponse` from `frontend/src/app/api/frontend-blocked/route.ts`:
HTTP status 403 with error code `CONTROL_OPERATIONS_DISABLED`. -/
def blockedResponse : ℕ × String := (403, "CONTROL_OPERATIONS_DISABLED")

/-- The route handlers exported by `frontend-blocked/route.ts`: each exported
HTTP method is bound to `blockedResponse`. -/
def frontendBlockedHandlers : List (String × (ℕ × String)) :=
  [("GET", blockedResponse), ("POST", blockedResponse), ("PUT", blockedResponse),
   ("PATCH", blockedResponse), ("DELETE", blockedResponse), ("HEAD", blockedResponse)]

/-- The blocking condition exactly as the claim words it: after stripping one
trailing slash from the path, either the path equals `/api/agent/analyze`,
or `ALLOW_CONTROL_OPERATIONS` is not the string `true` and the path is one
of the four control paths, or the path equals `/api/trading/strategy` and
the method is POST, PUT, PATCH or DELETE. -/
def frontendBlockedSpec (allowControlOperations : Option String)
    (pathname method : String) : Bool :=
  let p := if pathname.endsWith "/" then pathname.dropRight 1 else pathname
  p == "/api/agent/analyze" ||
    (!(allowControlOperations == some "true") &&
      (p == "/api/agent/start" || p == "/api/agent/stop" ||
       p == "/api/trading/history/reset" || p == "/api/trading/history/sync" ||
       (p == "/api/trading/strategy" &&
         (method == "POST" || method == "PUT" || method == "PATCH" ||
          method == "DELETE"))))

/-! ## Theorems: middleware -/

/-- The middleware rewrites exactly when the flattened Boolean condition over
the path lists holds. -/
theorem middleware_eq_blocked_iff (env : Option String) (pathname method : String) :
    middleware env pathname method = .rewriteToBlocked ↔
    (ALWAYS_BLOCKED_PATHS.contains (normalizePath pathname) ||
      (!(env == some "true") &&
        (CONTROLLED_PATHS.contains (normalizePath pathname) ||
          (WRITE_ONLY_BLOCKED_PATHS.contains (normalizePath pathname) &&
            WRITE_BLOCKED_METHODS.contains method)))) = true := by
  simp only [middleware]
  cases hA : ALWAYS_BLOCKED_PATHS.contains (normalizePath pathname) <;>
    cases hI : (env == some "true") <;>
    cases hC : CONTROLLED_PATHS.contains (normalizePath pathname) <;>
    cases hW : WRITE_ONLY_BLOCKED_PATHS.contains (normalizePath pathname) <;>
    cases hM : WRITE_BLOCKED_METHODS.contains method <;>
    simp [hA, hI, hC, hW, hM]

/-- C9: the middleware rewrites a request to the `/api/frontend-blocked`
endpoint if and only if, after stripping one trailing slash, the path is
`/api/agent/analyze`, or `ALLOW_CONTROL_OPERATIONS` is not `"true"` and the
path is a control path or a write (POST/PUT/PATCH/DELETE) to
`/api/trading/strategy`; every other request proceeds.  Every handler the
blocked endpoint exports returns HTTP 403 with error code
`CONTROL_OPERATIONS_DISABLED`. -/
theorem middleware_rewrite_iff (env : Option String) (pathname method : String) :
    (middleware env pathname method = .rewriteToBlocked ↔
      frontendBlockedSpec env pathname method = true) ∧
    frontendBlockedHandlers.all
      (fun e => decide (e.2 = (403, "CONTROL_OPERATIONS_DISABLED"))) = true := by
  refine ⟨?_, rfl⟩
  rw [middleware_eq_blocked_iff]
  simp only [frontendBlockedSpec, ALWAYS_BLOCKED_PATHS, CONTROLLED_PATHS,
    WRITE_ONLY_BLOCKED_PATHS, WRITE_BLOCKED_METHODS, List.contains_cons,
    List.contains_nil, Bool.or_false, Bool.or_assoc]
  by_cases hroot : pathname = "/"
  · subst hroot
    have hnorm : normalizePath "/" = "/" := by
      rw [normalizePath, if_pos rfl]
    rw [hnorm]
    cases hE : ("/" : String).endsWith "/" <;>
      simp [hE, show ("/" : String).dropRight 1 = "" from by decide]
  · have hnorm : normalizePath pathname =
        (if pathname.endsWith "/" then pathname.dropRight 1 else pathname) := by
      rw [normalizePath, if_neg hroot]
    rw [hnorm]

/-! ## TradingDashboard decision-list merges -/

/-- A dashboard decision (`Decision` in `lib/types.ts`), restricted to the
fields the merges use: the `id` (analysis UUID) and the numeric sequence. -/
structure Decision where
  id : String
  sequence : Int
  deriving DecidableEq

/-- The refresh merge in `loadData`: the freshly fetched page first, followed
by the previous entries whose ids do not occur in the page
(`decisionsResult.concat(prev.filter((d) => !latestIds.has(d.id)))`). -/
def refreshMergeDecisions (decisionsResult prev : List Decision) : List Decision :=
  let latestIds := decisionsResult.map (fun d => d.id)
  decisionsResult ++ prev.filter (fun d => !(latestIds.contains d.id))

/-- The pagination merge in `handleLoadMoreDecisions`: the previous list,
followed by the fetched entries whose ids do not occur in it
(`[...prev, ...nextPage.filter((d) => !existingIds.has(d.id))]`). -/
def loadMoreMergeDecisions (prev nextPage : List Decision) : List Decision :=
  let existingIds := prev.map (fun d => d.id)
  prev ++ nextPage.filter (fun d => !(existingIds.contains d.id))

/-! ## Theorems: decision-list merges -/

/-- Negated `contains` is the decision of non-membership. -/
theorem not_contains_eq_decide_not_mem (l : List String) (x : String) :
    (!(l.contains x)) = decide (x ∉ l) := by
  by_cases hm : x ∈ l
  · have hc : l.contains x = true := List.elem_iff.mpr hm
    rw [hc]
    simp [hm]
  · have hc : l.contains x = false := by
      cases hcc : l.contains x
      · rfl
      · exact absurd (List.elem_iff.mp hcc) hm
    rw [hc]
    simp [hm]

/-- The common shape of both merges preserves distinct ids when both input
lists have distinct ids. -/
theorem mergeDistinct_nodup (base extra : List Decision)
    (hbase : (base.map (fun d => d.id)).Nodup)
    (hextra : (extra.map (fun d => d.id)).Nodup) :
    ((base ++ extra.filter
        (fun d => !((base.map (fun e => e.id)).contains d.id))).map
      (fun d => d.id)).Nodup := by
  rw [List.map_append, List.nodup_append]
  refine ⟨hbase, ?_, ?_⟩
  · exact List.Nodup.sublist ((List.filter_sublist extra).map (fun d => d.id)) hextra
  · intro x hx₁ hx₂
    rw [List.mem_map] at hx₂
    obtain ⟨d, hd_mem, hd_id⟩ := hx₂
    rw [List.mem_filter] at hd_mem
    have hmem : d.id ∈ base.map (fun e => e.id) := hd_id ▸ hx₁
    have hc : (base.map (fun e => e.id)).contains d.id = true :=
      List.elem_iff.mpr hmem
    rw [hc] at hd_mem
    exact absurd hd_mem.2 (by simp)

/-- Counterexample for C10 as stated: with an empty previous list (trivially
distinct ids) and a fetched page containing two entries with the same id,
both merge operations return a list with duplicate ids. -/
theorem decisions_merge_duplicate_ids_counterexample :
    ¬ (((refreshMergeDecisions [⟨"a", 1⟩, ⟨"a", 2⟩] []).map
          (fun d => d.id)).Nodup) ∧
    ¬ (((loadMoreMergeDecisions [] [⟨"a", 1⟩, ⟨"a", 2⟩]).map
          (fun d => d.id)).Nodup) := by
  constructor <;> decide

/-- C10 (amended): when the previous list and the fetched page each have
pairwise-distinct ids, both merges produce a list with pairwise-distinct
ids; the refresh merge is the page followed by exactly those previous
entries whose ids do not occur in the page, the pagination merge appends
exactly those fetched entries whose ids do not occur in the previous list,
and it preserves the previous list as a prefix. -/
theorem decisions_merge_preserves_distinct_ids (prev page : List Decision)
    (hprev : (prev.map (fun d => d.id)).Nodup)
    (hpage : (page.map (fun d => d.id)).Nodup) :
    ((refreshMergeDecisions page prev).map (fun d => d.id)).Nodup ∧
    ((loadMoreMergeDecisions prev page).map (fun d => d.id)).Nodup ∧
    refreshMergeDecisions page prev =
      page ++ prev.filter (fun d => decide (d.id ∉ page.map (fun e => e.id))) ∧
    loadMoreMergeDecisions prev page =
      prev ++ page.filter (fun d => decide (d.id ∉ prev.map (fun e => e.id))) ∧
    (loadMoreMergeDecisions prev page).take prev.length = prev := by
  refine ⟨mergeDistinct_nodup page prev hpage hprev,
    mergeDistinct_nodup prev page hprev hpage, ?_, ?_, ?_⟩
  · simp only [refreshMergeDecisions]
    congr 1
    exact List.filter_congr (fun d _ => not_contains_eq_decide_not_mem _ _)
  · simp only [loadMoreMergeDecisions]
    congr 1
    exact List.filter_congr (fun d _ => not_contains_eq_decide_not_mem _ _)
  · simp only [loadMoreMergeDecisions]
    exact List.take_left prev _

/-- Witness for the amended C10: a previous list `[a]` and a page `[b]` with
distinct ids merge to duplicate-free lists in both operations. -/
theorem decisions_merge_preserves_distinct_ids_witness :
    (([⟨"a", 1⟩] : List Decision).map (fun d => d.id)).Nodup ∧
    (([⟨"b", 2⟩] : List Decision).map (fun d => d.id)).Nodup ∧
    (((refreshMergeDecisions [⟨"b", 2⟩] [⟨"a", 1⟩]).map (fun d => d.id)).Nodup ∧
     ((loadMoreMergeDecisions [⟨"a", 1⟩] [⟨"b", 2⟩]).map (fun d => d.id)).Nodup ∧
     refreshMergeDecisions [⟨"b", 2⟩] [⟨"a", 1⟩] =
       [⟨"b", 2⟩] ++ ([⟨"a", 1⟩] : List Decision).filter
         (fun d => decide (d.id ∉ ([⟨"b", 2⟩] : List Decision).map (fun e => e.id))) ∧
     loadMoreMergeDecisions [⟨"a", 1⟩] [⟨"b", 2⟩] =
       [⟨"a", 1⟩] ++ ([⟨"b", 2⟩] : List Decision).filter
         (fun d => decide (d.id ∉ ([⟨"a", 1⟩] : List Decision).map (fun e => e.id))) ∧
     (loadMoreMergeDecisions [⟨"a", 1⟩] [⟨"b", 2⟩]).take
       ([⟨"a", 1⟩] : List Decision).length = [⟨"a", 1⟩]) :=
  ⟨by decide, by decide,
   decisions_merge_preserves_distinct_ids [⟨"a", 1⟩] [⟨"b", 2⟩] (by decide) (by decide)⟩
